import Mathlib

/-!
# Verification of the sphinx-js ingestion pass (`sphinx_js/jsdoc.py`)

A shallow embedding of the ingestion pass of `sphinx_js/jsdoc.py`:

* `run_jsdoc` — filtering of raw doclets, Suffix Index construction with
  conflict aggregation, and Membership Index construction;
* `doclet_full_path`, `without_ending` — full-path computation;
* the Suffix Index insert contract and the path grammar, which live in
  `sphinx_js/suffix_tree.py` and `sphinx_js/parsers.py` (modules referenced
  by `jsdoc.py` but not present among the sources), modelled from the spec.

Python strings are embedded as `List Char`; a path segment is the string the
path visitor produces for it (the docstring of `doclet_full_path` shows the
segment values, e.g. `['./', 'dir/', 'file/', 'object.', 'object']`), and a
full path is the list of those segment strings.
-/

set_option autoImplicit false
set_option synthInstance.maxHeartbeats 1000000
set_option maxHeartbeats 1000000

namespace SphinxJs

/-- One path segment, as the string the path visitor produces for it. -/
abbrev Seg := List Char

/-- A full path: the ordered list of its segment strings. -/
abbrev FullPath := List Seg

/-- The fields of a raw doclet that `run_jsdoc` and `doclet_full_path` read:
`comment`, `undocumented`, `memberof`, `longname`, and the `meta` table's
`path` and `filename`.  Absent optional JSON fields are `none` / `false`. -/
structure Doclet where
  comment : Option (List Char)
  undocumented : Bool
  memberof : Option (List Char)
  longname : List Char
  metaPath : List Char
  metaFilename : List Char
deriving DecidableEq

/-- Python truthiness of `d.get(field)` for an optional string field:
false for a missing field and for the empty string. -/
def pyTruthy : Option (List Char) → Bool
  | none => false
  | some s => !s.isEmpty

/-- Failure of the path grammar on a malformed path string
(spec §4.1: "malformed input ... fails with a `ParseError` naming the
offending fragment"). -/
structure ParseError where
  fragment : List Char
deriving DecidableEq

/-- The conflict raised by one colliding insertion; `jsdoc.py` reads its
`segments` attribute, a single full path given as a list of segments. -/
structure PathTaken where
  segments : FullPath
deriving DecidableEq

/-- The aggregate failure of `jsdoc.py` (`class PathsTaken`): its `conflicts`
attribute is, per its own docstring, a "List of paths, each given as a list
of segments". -/
structure PathsTaken where
  conflicts : List FullPath
deriving DecidableEq

/-- Which top-level doclet field `doclet_full_path` reads for the long name:
its `longname_field` argument, `'longname'` by default, `'memberof'` for the
Membership Index. -/
inductive LongnameField where
  | longname
  | memberof
deriving DecidableEq

/-- The lookup `d[longname_field]`: the long-name string the chosen field holds.  The
`memberof` access is only reached under the `if of:` truthiness guard of
`run_jsdoc`, so the `getD` default never describes a real doclet. -/
def Doclet.fieldVal (d : Doclet) : LongnameField → List Char
  | LongnameField.longname => d.longname
  | LongnameField.memberof => d.memberof.getD []

/-- Modelled from the spec: `os.path.relpath` (Python standard library,
outside this repository) as exercised here — relativize `p` against the
base directory (§6: "absolute or root-relative file path plus a base
directory to relativize against").  A path equal to the base yields `.`,
a path under the base is stripped of the base prefix, anything else is
returned unchanged.  No claim depends on its internals. -/
def relpath (p base : List Char) : List Char :=
  if p == base then ['.']
  else if (base ++ ['/']).isPrefixOf p then p.drop (base.length + 1)
  else p

/-- Lines 82–87 of `jsdoc.py`: prefix the relativized directory with `./`
unless it already starts with `../` or `./` or is exactly `..` or `.`. -/
def rooted_rel (rel : List Char) : List Char :=
  if !(['.', '.', '/'].isPrefixOf rel || ['.', '/'].isPrefixOf rel) &&
      !(rel == ['.', '.'] || rel == ['.']) then
    ['.', '/'] ++ rel
  else rel

/-- Function `without_ending` of `jsdoc.py`: strip `ending` from the end of `str` if
present, else return `str` unchanged.  (Python's `str[:-len(ending)]` is the
empty string when `ending` is empty, hence the inner branch.) -/
def without_ending (s ending : List Char) : List Char :=
  if ending.isSuffixOf s then
    if ending.isEmpty then [] else s.take (s.length - ending.length)
  else s

/-- Modelled from the spec: the root-marker part of the path grammar of
`sphinx_js/parsers.py` (module absent from the sources).  Peels the leading
`./` and `../` markers off a path string, each becoming its own segment
(§4.1: the rooted relative directory starts with `./` or `../`). -/
def peelMarkers : List Char → List Seg × List Char
  | '.' :: '.' :: '/' :: rest =>
      let r := peelMarkers rest
      (['.', '.', '/'] :: r.1, r.2)
  | '.' :: '/' :: rest =>
      let r := peelMarkers rest
      (['.', '/'] :: r.1, r.2)
  | s => ([], s)

/-- Modelled from the spec: the component part of the path grammar of
`sphinx_js/parsers.py` (module absent from the sources).  Splits the string
after the root markers at `/` (directory/file), `.` (static member) and `#`
(instance member); every component but the last keeps the punctuation that
follows it, matching the segment strings shown in `doclet_full_path`'s
docstring; an empty component is malformed and fails with a `ParseError`
naming the offending fragment (§4.1). -/
def splitComps : List Char → List Char → Except ParseError (List Seg)
  | [], acc => if acc.isEmpty then Except.error ⟨[]⟩ else Except.ok [acc]
  | c :: rest, acc =>
      if c == '/' || c == '.' || c == '#' then
        if acc.isEmpty then Except.error ⟨c :: rest⟩
        else
          match splitComps rest [] with
          | Except.error e => Except.error e
          | Except.ok segs => Except.ok ((acc ++ [c]) :: segs)
      else splitComps rest (acc ++ [c])

/-- Modelled from the spec: `PathVisitor().visit(path_and_formal_params['path'].parse(path))`
of `sphinx_js/parsers.py` (module absent from the sources) — parse one
concatenated path string into its ordered list of segment strings, failing
with a `ParseError` on malformed input (§4.1). -/
def parsePath (s : List Char) : Except ParseError FullPath :=
  let r := peelMarkers s
  match splitComps r.2 [] with
  | Except.error e => Except.error e
  | Except.ok comps => Except.ok (r.1 ++ comps)

/-- Function `doclet_full_path` of `jsdoc.py`: relativize the doclet's directory,
root it, build the single path string
`'%s/%s.%s' % (rooted_rel, without_ending(filename, '.js'), d[longname_field])`
and parse it back down into segments. -/
def doclet_full_path (d : Doclet) (base_dir : List Char) (lf : LongnameField) :
    Except ParseError FullPath :=
  let rel := relpath d.metaPath base_dir
  let rooted := rooted_rel rel
  parsePath (rooted ++ '/' ::
    (without_ending d.metaFilename ['.', 'j', 's'] ++ '.' :: d.fieldVal lf))

/-- Modelled from the spec: the Suffix Index of `sphinx_js/suffix_tree.py`
(module absent from the sources), represented by its inserted
(full path, record) pairs.  Only the `insert` contract of §4.2 is needed by
these claims: inserting a full path structurally identical to a previously
inserted one fails with a conflict and leaves the index unchanged; a
distinct full path (even one sharing a trailing suffix) coexists. -/
abbrev SuffixTree := List (FullPath × Doclet)

/-- Does the index already hold a record at exactly this full path? -/
def SuffixTree.hasPath (t : SuffixTree) (p : FullPath) : Bool :=
  t.any (fun e => e.1 == p)

/-- Modelled from the spec: `SuffixTree.add` (§4.2 `insert`): fail with
`PathTaken` exactly when an identical full path was previously inserted,
without mutating the index; otherwise record the pair. -/
def SuffixTree.add (t : SuffixTree) (p : FullPath) (d : Doclet) :
    Except PathTaken SuffixTree :=
  if t.hasPath p then Except.error ⟨p⟩ else Except.ok (t ++ [(p, d)])

/-- The Membership Index (`app._sphinxjs_doclets_by_class`): a
`defaultdict(lambda: [])` from a scope's full path (`tuple(segments)`) to
the list of its member doclets. -/
abbrev MIdx := FullPath → List Doclet

/-- An error escaping `run_jsdoc`: either a `ParseError` propagating out of
`doclet_full_path` (uncaught — the `except` clause catches only `PathTaken`)
or the aggregate `PathsTaken` raised after the insertion loop. -/
inductive RunError where
  | parse : ParseError → RunError
  | pathsTaken : PathsTaken → RunError

/-- Result of the insertion loop of `run_jsdoc` (lines 40–48): the Suffix
Index built so far, the collected conflict paths, and the first uncaught
`ParseError`, if any (which stops the loop where it occurred). -/
structure InsertResult where
  tree : SuffixTree
  conflicts : List FullPath
  err : Option ParseError

/-- The insertion loop of `run_jsdoc`: for each doclet, compute its full
path and `add` it to the Suffix Index; a `PathTaken` conflict appends
`conflict.segments` to the collected conflicts and the loop continues; a
`ParseError` is not caught and aborts the loop. -/
def insertLoop (base : List Char) :
    List Doclet → SuffixTree → List FullPath → InsertResult
  | [], t, cs => ⟨t, cs, none⟩
  | d :: ds, t, cs =>
      match doclet_full_path d base LongnameField.longname with
      | Except.error e => ⟨t, cs, some e⟩
      | Except.ok p =>
          match SuffixTree.add t p d with
          | Except.error c => insertLoop base ds t (cs ++ [c.segments])
          | Except.ok t2 => insertLoop base ds t2 cs

/-- Result of the membership loop of `run_jsdoc` (lines 62–67): the
Membership Index built so far and the first uncaught `ParseError`, if any. -/
structure ClassResult where
  idx : MIdx
  err : Option ParseError

/-- The membership loop of `run_jsdoc`: for each doclet whose `memberof`
field is truthy, compute the enclosing scope's full path (the doclet's path
with `longname_field='memberof'`) and append the doclet to the list keyed
by that path; a `ParseError` aborts the loop. -/
def classLoop (base : List Char) : List Doclet → MIdx → ClassResult
  | [], m => ⟨m, none⟩
  | d :: ds, m =>
      if pyTruthy d.memberof then
        match doclet_full_path d base LongnameField.memberof with
        | Except.error e => ⟨m, some e⟩
        | Except.ok segs =>
            classLoop base ds (fun k => if k = segs then m k ++ [d] else m k)
      else classLoop base ds m

/-- The two lookup tables `run_jsdoc` stores on the Sphinx `app` object;
`none` models an attribute not (yet) assigned. -/
structure App where
  by_path : Option SuffixTree
  by_class : Option MIdx

/-- Line 36 of `run_jsdoc`: drop every doclet with a falsy `comment` or a
truthy `undocumented` flag before any indexing. -/
def filteredOf (doclets : List Doclet) : List Doclet :=
  doclets.filter (fun d => pyTruthy d.comment && !d.undocumented)

/-- Function `run_jsdoc` of `jsdoc.py`, from the point where the doclets have been
loaded: filter the doclets, build the Suffix Index collecting conflicts,
raise the aggregate `PathsTaken` if any conflict was collected, and only
then build the Membership Index.  The returned `App` reflects the attribute
assignments performed before the error (if any) escaped. -/
def run_jsdoc (base : List Char) (doclets : List Doclet) (app : App) :
    Except RunError Unit × App :=
  let ds := filteredOf doclets
  let r := insertLoop base ds [] []
  let app1 : App := { app with by_path := some r.tree }
  match r.err with
  | some e => (Except.error (RunError.parse e), app1)
  | none =>
      if r.conflicts.isEmpty then
        let c := classLoop base ds (fun _ => [])
        let app2 : App := { app1 with by_class := some c.idx }
        match c.err with
        | some e => (Except.error (RunError.parse e), app2)
        | none => (Except.ok (), app2)
      else (Except.error (RunError.pathsTaken ⟨r.conflicts⟩), app1)

/-! ## Specification-side helper definitions -/

/-- The full path a doclet's chosen long-name field parses to (meaningful
when the parse succeeds). -/
def pathOf (base : List Char) (lf : LongnameField) (d : Doclet) : FullPath :=
  match doclet_full_path d base lf with
  | Except.ok p => p
  | Except.error _ => []

/-- The full paths of a batch, in batch order. -/
def pathsOf (base : List Char) (ds : List Doclet) : List FullPath :=
  ds.map (pathOf base LongnameField.longname)

/-- The (full path, doclet) pairs of a batch, in batch order. -/
def pairsOf (base : List Char) (ds : List Doclet) : List (FullPath × Doclet) :=
  ds.map (fun d => (pathOf base LongnameField.longname d, d))

/-- Every doclet's own long name parses to a full path. -/
abbrev AllParse (base : List Char) (ds : List Doclet) : Prop :=
  ds.all (fun d => (doclet_full_path d base LongnameField.longname).isOk) = true

/-- Every doclet with a truthy `memberof` has a parsable enclosing scope. -/
abbrev AllParseMem (base : List Char) (ds : List Doclet) : Prop :=
  ds.all (fun d =>
    !pyTruthy d.memberof || (doclet_full_path d base LongnameField.memberof).isOk) = true

/-- The paths of `l` that already occurred earlier (in `seen`, or before
their own position in `l`), in order of occurrence: the declarative
description of the collisions of one ingestion pass. -/
def dupsFrom (seen : List FullPath) : List FullPath → List FullPath
  | [] => []
  | p :: ps => if p ∈ seen then p :: dupsFrom seen ps else dupsFrom (p :: seen) ps

/-- The insertion loop on pre-parsed (full path, doclet) pairs: the shape
`insertLoop` takes when no `ParseError` occurs. -/
def insertPure : List (FullPath × Doclet) → SuffixTree → List FullPath →
    SuffixTree × List FullPath
  | [], t, cs => (t, cs)
  | pd :: ps, t, cs =>
      if SuffixTree.hasPath t pd.1 then insertPure ps t (cs ++ [pd.1])
      else insertPure ps (t ++ [pd]) cs

/-- A dynamic Python value, as far as the conflict report is concerned:
a string or a list.  Used to compare the shape of the value the code stores
per conflict with the shape the spec describes. -/
inductive PyVal where
  | pstr : List Char → PyVal
  | plist : List PyVal → PyVal

/-- The Python value `conflict.segments` that `run_jsdoc` appends for one
conflict: a single full path, as a list of segment strings. -/
def pyConflictElem (p : FullPath) : PyVal :=
  PyVal.plist (p.map PyVal.pstr)

/-- Modelled from the spec: one element of "a (possibly empty) list of
conflicting full-path pairs ... carrying both full paths (as segment
lists)" (§6, §4.2) — a pair of full paths, each a list of segment strings. -/
def pyPathPair (p q : FullPath) : PyVal :=
  PyVal.plist [pyConflictElem p, pyConflictElem q]

/-! ## Concrete exemplar data (for witnesses and counterexamples) -/

/-- The base directory `/s`. -/
def exBase : List Char := ['/', 's']

/-- A documented class doclet `C` in `/s/f.js`. -/
def exD1 : Doclet :=
  ⟨some ['c'], false, none, ['C'], ['/', 's'], ['f', '.', 'j', 's']⟩

/-- A documented method doclet `C#m` in `/s/f.js`, member of `C`. -/
def exD2 : Doclet :=
  ⟨some ['m'], false, some ['C'], ['C', '#', 'm'], ['/', 's'], ['f', '.', 'j', 's']⟩

/-- A second documented doclet for `C` (distinct comment, same long name):
its full path collides with `exD1`'s. -/
def exD1b : Doclet :=
  ⟨some ['d'], false, none, ['C'], ['/', 's'], ['f', '.', 'j', 's']⟩

/-- A doclet with an empty long name: its path string ends in `.` and the
final component is empty, so the path grammar rejects it. -/
def exBad : Doclet :=
  ⟨some ['x'], false, none, [], ['/', 's'], ['f', '.', 'j', 's']⟩

/-- A doclet with no comment (filtered out). -/
def exNoComment : Doclet :=
  ⟨none, false, none, ['N'], ['/', 's'], ['f', '.', 'j', 's']⟩

/-- A doclet marked undocumented (filtered out). -/
def exUndoc : Doclet :=
  ⟨some ['u'], true, none, ['U'], ['/', 's'], ['f', '.', 'j', 's']⟩

/-- A Sphinx app with neither lookup table assigned yet. -/
def exApp : App := ⟨none, none⟩

/-- The full path of `C` in `./f.js`: `['./', 'f.', 'C']`. -/
def exPathC : FullPath := [['.', '/'], ['f', '.'], ['C']]

/-! ## Basic lemmas -/

lemma isOk_iff_eq_ok {ε α : Type} (e : Except ε α) :
    e.isOk = true ↔ ∃ a, e = Except.ok a := by
  cases e <;> simp [Except.isOk, Except.toBool]

lemma dfp_eq_ok (d : Doclet) (base : List Char) (lf : LongnameField)
    (h : (doclet_full_path d base lf).isOk = true) :
    doclet_full_path d base lf = Except.ok (pathOf base lf d) := by
  rcases (isOk_iff_eq_ok _).mp h with ⟨p, hp⟩
  simp [pathOf, hp]

lemma hasPath_iff (t : SuffixTree) (p : FullPath) :
    SuffixTree.hasPath t p = true ↔ p ∈ t.map Prod.fst := by
  simp [SuffixTree.hasPath, List.any_eq_true, List.mem_map]

lemma hasPath_append (t : SuffixTree) (x : FullPath × Doclet) (p : FullPath) :
    SuffixTree.hasPath (t ++ [x]) p = (SuffixTree.hasPath t p || (x.1 == p)) := by
  simp [SuffixTree.hasPath, List.any_append]

lemma pairsOf_keys (base : List Char) (ds : List Doclet) :
    (pairsOf base ds).map Prod.fst = pathsOf base ds := by
  simp [pairsOf, pathsOf]

lemma dupsFrom_congr (l : List FullPath) :
    ∀ s1 s2 : List FullPath, (∀ x, x ∈ s1 ↔ x ∈ s2) →
      dupsFrom s1 l = dupsFrom s2 l := by
  induction l with
  | nil => intro s1 s2 _; rfl
  | cons p ps ih =>
      intro s1 s2 hs
      by_cases hp : p ∈ s1
      · have hp2 : p ∈ s2 := (hs p).mp hp
        simp [dupsFrom, hp, hp2, ih s1 s2 hs]
      · have hp2 : p ∉ s2 := fun h => hp ((hs p).mpr h)
        simp only [dupsFrom, if_neg hp, if_neg hp2]
        refine ih _ _ ?_
        intro x
        simp [hs x]

/-! ## The insertion loop -/

lemma insertLoop_append (base : List Char) (ds1 : List Doclet) :
    ∀ (ds2 : List Doclet) (t : SuffixTree) (cs : List FullPath),
      AllParse base ds1 →
      insertLoop base (ds1 ++ ds2) t cs =
        insertLoop base ds2 (insertPure (pairsOf base ds1) t cs).1
          (insertPure (pairsOf base ds1) t cs).2 := by
  induction ds1 with
  | nil => intro ds2 t cs _; rfl
  | cons d ds ih =>
      intro ds2 t cs h
      have h' : (doclet_full_path d base LongnameField.longname).isOk = true ∧
          AllParse base ds := by
        simpa [AllParse, List.all_cons] using h
      have hd := dfp_eq_ok d base LongnameField.longname h'.1
      by_cases hP : SuffixTree.hasPath t (pathOf base LongnameField.longname d)
      · simp only [List.cons_append, insertLoop, hd, SuffixTree.add, if_pos hP,
          pairsOf, List.map_cons, insertPure]
        exact ih ds2 t (cs ++ [pathOf base LongnameField.longname d]) h'.2
      · simp only [List.cons_append, insertLoop, hd, SuffixTree.add, if_neg hP,
          pairsOf, List.map_cons, insertPure]
        exact ih ds2 (t ++ [(pathOf base LongnameField.longname d, d)]) cs h'.2

lemma insertLoop_eq_pure (base : List Char) (ds : List Doclet) (t : SuffixTree)
    (cs : List FullPath) (h : AllParse base ds) :
    insertLoop base ds t cs =
      ⟨(insertPure (pairsOf base ds) t cs).1,
       (insertPure (pairsOf base ds) t cs).2, none⟩ := by
  have := insertLoop_append base ds [] t cs h
  simpa [insertLoop] using this

lemma insertPure_conflicts (ps : List (FullPath × Doclet)) :
    ∀ (t : SuffixTree) (cs : List FullPath),
      (insertPure ps t cs).2 = cs ++ dupsFrom (t.map Prod.fst) (ps.map Prod.fst) := by
  induction ps with
  | nil => intro t cs; simp [insertPure, dupsFrom]
  | cons pd ps ih =>
      intro t cs
      by_cases hP : SuffixTree.hasPath t pd.1
      · have hmem : pd.1 ∈ t.map Prod.fst := (hasPath_iff t pd.1).mp hP
        simp only [insertPure, if_pos hP, List.map_cons, dupsFrom, if_pos hmem]
        rw [ih]
        simp
      · have hmem : pd.1 ∉ t.map Prod.fst := fun hm => hP ((hasPath_iff t pd.1).mpr hm)
        simp only [insertPure, if_neg hP, List.map_cons, dupsFrom, if_neg hmem]
        rw [ih]
        have : dupsFrom ((t ++ [pd]).map Prod.fst) (ps.map Prod.fst) =
            dupsFrom (pd.1 :: t.map Prod.fst) (ps.map Prod.fst) := by
          refine dupsFrom_congr _ _ _ ?_
          intro x
          simp [List.mem_append, or_comm]
        rw [this]

lemma insertPure_mono (ps : List (FullPath × Doclet)) :
    ∀ (t : SuffixTree) (cs : List FullPath) (x : FullPath × Doclet),
      x ∈ t → x ∈ (insertPure ps t cs).1 := by
  induction ps with
  | nil => intro t cs x hx; simpa [insertPure] using hx
  | cons pd ps ih =>
      intro t cs x hx
      by_cases hP : SuffixTree.hasPath t pd.1
      · simp only [insertPure, if_pos hP]
        exact ih t _ x hx
      · simp only [insertPure, if_neg hP]
        exact ih (t ++ [pd]) cs x (List.mem_append_left _ hx)

lemma insertPure_sub (ps : List (FullPath × Doclet)) :
    ∀ (t : SuffixTree) (cs : List FullPath) (x : FullPath × Doclet),
      x ∈ (insertPure ps t cs).1 → x ∈ t ∨ x ∈ ps := by
  induction ps with
  | nil => intro t cs x hx; exact Or.inl (by simpa [insertPure] using hx)
  | cons pd ps ih =>
      intro t cs x hx
      by_cases hP : SuffixTree.hasPath t pd.1
      · simp only [insertPure, if_pos hP] at hx
        rcases ih t _ x hx with h | h
        · exact Or.inl h
        · exact Or.inr (List.mem_cons_of_mem _ h)
      · simp only [insertPure, if_neg hP] at hx
        rcases ih (t ++ [pd]) cs x hx with h | h
        · rcases List.mem_append.mp h with h2 | h2
          · exact Or.inl h2
          · have hx2 : x = pd := by simpa using h2
            exact Or.inr (by simp [hx2])
        · exact Or.inr (List.mem_cons_of_mem _ h)

lemma insertPure_mem_of_count_one (ps : List (FullPath × Doclet)) :
    ∀ (t : SuffixTree) (cs : List FullPath) (p : FullPath) (d : Doclet),
      (p, d) ∈ ps → List.count p (ps.map Prod.fst) = 1 →
      SuffixTree.hasPath t p = false → (p, d) ∈ (insertPure ps t cs).1 := by
  induction ps with
  | nil => intro t cs p d h; simp at h
  | cons pd ps ih =>
      intro t cs p d hmem hcount hfree
      rcases List.mem_cons.mp hmem with heq | hrest
      · -- the head is the record itself; its path is free, so it is inserted
        have h1 : pd.1 = p := by rw [← heq]
        have hP : SuffixTree.hasPath t pd.1 = false := by rw [h1]; exact hfree
        simp only [insertPure]
        rw [if_neg (by simp [hP])]
        refine insertPure_mono ps (t ++ [pd]) cs (p, d) ?_
        exact List.mem_append_right _ (by simp [heq])
      · have hne : pd.1 ≠ p := by
          intro hkey
          have hp_in : p ∈ ps.map Prod.fst :=
            List.mem_map.mpr ⟨(p, d), hrest, rfl⟩
          have hpos : 0 < List.count p (ps.map Prod.fst) :=
            List.count_pos_iff.mpr hp_in
          rw [List.map_cons, hkey, List.count_cons_self] at hcount
          omega
        have hcount' : List.count p (ps.map Prod.fst) = 1 := by
          rw [List.map_cons, List.count_cons_of_ne (fun h => hne h.symm)] at hcount
          exact hcount
        by_cases hP : SuffixTree.hasPath t pd.1
        · simp only [insertPure, if_pos hP]
          exact ih t _ p d hrest hcount' hfree
        · simp only [insertPure, if_neg hP]
          refine ih (t ++ [pd]) cs p d hrest hcount' ?_
          rw [hasPath_append, hfree]
          simp [hne]

lemma insertLoop_tree_sub (base : List Char) (ds : List Doclet) :
    ∀ (t : SuffixTree) (cs : List FullPath) (x : FullPath × Doclet),
      x ∈ (insertLoop base ds t cs).tree → x ∈ t ∨ x.2 ∈ ds := by
  induction ds with
  | nil => intro t cs x hx; exact Or.inl (by simpa [insertLoop] using hx)
  | cons d ds ih =>
      intro t cs x hx
      cases hE : doclet_full_path d base LongnameField.longname with
      | error e =>
          simp only [insertLoop, hE] at hx
          exact Or.inl hx
      | ok p =>
          by_cases hP : SuffixTree.hasPath t p
          · simp only [insertLoop, hE, SuffixTree.add, if_pos hP] at hx
            rcases ih t _ x hx with h | h
            · exact Or.inl h
            · exact Or.inr (List.mem_cons_of_mem _ h)
          · simp only [insertLoop, hE, SuffixTree.add, if_neg hP] at hx
            rcases ih (t ++ [(p, d)]) cs x hx with h | h
            · rcases List.mem_append.mp h with h2 | h2
              · exact Or.inl h2
              · have : x = (p, d) := by simpa using h2
                exact Or.inr (by simp [this])
            · exact Or.inr (List.mem_cons_of_mem _ h)

/-! ## The membership loop -/

lemma classLoop_spec (base : List Char) (ds : List Doclet) :
    ∀ m0 : MIdx, AllParseMem base ds →
      (classLoop base ds m0).err = none ∧
      ∀ k, (classLoop base ds m0).idx k =
        m0 k ++ ds.filter (fun d =>
          pyTruthy d.memberof && (pathOf base LongnameField.memberof d == k)) := by
  induction ds with
  | nil => intro m0 _; exact ⟨rfl, fun k => by simp [classLoop]⟩
  | cons d ds ih =>
      intro m0 h
      have h' : (!pyTruthy d.memberof ||
            (doclet_full_path d base LongnameField.memberof).isOk) = true ∧
          AllParseMem base ds := by
        simpa [AllParseMem, List.all_cons] using h
      by_cases hT : pyTruthy d.memberof = true
      · have hOk : (doclet_full_path d base LongnameField.memberof).isOk = true := by
          have := h'.1
          simpa [hT] using this
        have hd := dfp_eq_ok d base LongnameField.memberof hOk
        have hstep : classLoop base (d :: ds) m0 =
            classLoop base ds (fun k =>
              if k = pathOf base LongnameField.memberof d then m0 k ++ [d] else m0 k) := by
          simp [classLoop, hT, hd]
        rw [hstep]
        rcases ih _ h'.2 with ⟨he, hi⟩
        refine ⟨he, fun k => ?_⟩
        rw [hi k]
        by_cases hk : k = pathOf base LongnameField.memberof d
        · subst hk
          simp [List.filter_cons, hT]
        · have hbeq : (pathOf base LongnameField.memberof d == k) = false := by
            simp only [beq_eq_false_iff_ne, ne_eq]
            exact fun hh => hk hh.symm
          simp [List.filter_cons, hT, hbeq, if_neg hk]
      · have hF : pyTruthy d.memberof = false := by
          cases hTT : pyTruthy d.memberof
          · rfl
          · exact absurd hTT hT
        have hstep : classLoop base (d :: ds) m0 = classLoop base ds m0 := by
          simp [classLoop, hF]
        rw [hstep]
        rcases ih m0 h'.2 with ⟨he, hi⟩
        refine ⟨he, fun k => ?_⟩
        rw [hi k]
        simp [List.filter_cons, hF]

lemma classLoop_mem_sub (base : List Char) (ds : List Doclet) :
    ∀ (m0 : MIdx) (k : FullPath) (d : Doclet),
      d ∈ (classLoop base ds m0).idx k → (∃ k2, d ∈ m0 k2) ∨ d ∈ ds := by
  induction ds with
  | nil => intro m0 k d h; exact Or.inl ⟨k, by simpa [classLoop] using h⟩
  | cons d0 ds ih =>
      intro m0 k d h
      by_cases hT : pyTruthy d0.memberof = true
      · cases hE : doclet_full_path d0 base LongnameField.memberof with
        | error e =>
            simp only [classLoop, hT, if_true, hE] at h
            exact Or.inl ⟨k, h⟩
        | ok segs =>
            simp only [classLoop, hT, if_true, hE] at h
            rcases ih _ k d h with ⟨k2, hk2⟩ | hds
            · by_cases hk : k2 = segs
              · simp only [hk, if_pos rfl] at hk2
                rcases List.mem_append.mp hk2 with h2 | h2
                · exact Or.inl ⟨segs, h2⟩
                · have : d = d0 := by simpa using h2
                  exact Or.inr (by simp [this])
              · simp only [if_neg hk] at hk2
                exact Or.inl ⟨k2, hk2⟩
            · exact Or.inr (List.mem_cons_of_mem _ hds)
      · have hF : pyTruthy d0.memberof = false := by
          cases hTT : pyTruthy d0.memberof
          · rfl
          · exact absurd hTT hT
        simp only [classLoop, hF, Bool.false_eq_true, if_false] at h
        rcases ih m0 k d h with h2 | h2
        · exact Or.inl h2
        · exact Or.inr (List.mem_cons_of_mem _ h2)

/-! ## Duplicate characterization -/

lemma dupsFrom_eq_nil (l : List FullPath) :
    ∀ seen, dupsFrom seen l = [] → l.Nodup ∧ ∀ p ∈ l, p ∉ seen := by
  induction l with
  | nil => intro seen _; exact ⟨List.nodup_nil, by simp⟩
  | cons p ps ih =>
      intro seen h
      by_cases hp : p ∈ seen
      · simp [dupsFrom, hp] at h
      · simp only [dupsFrom, if_neg hp] at h
        rcases ih _ h with ⟨hnd, hni⟩
        refine ⟨List.nodup_cons.mpr ⟨fun hmem => ?_, hnd⟩, ?_⟩
        · exact (hni p hmem) (List.mem_cons_self p seen)
        · intro q hq
          rcases List.mem_cons.mp hq with rfl | hq2
          · exact hp
          · intro hqs
            exact hni q hq2 (List.mem_cons_of_mem _ hqs)

lemma mem_dupsFrom_count (l : List FullPath) :
    ∀ (seen : List FullPath) (c : FullPath), c ∈ dupsFrom seen l →
      (c ∈ seen ∧ c ∈ l) ∨ 2 ≤ List.count c l := by
  induction l with
  | nil => intro seen c h; simp [dupsFrom] at h
  | cons p ps ih =>
      intro seen c h
      have hmono : ∀ (hc : 2 ≤ List.count c ps), 2 ≤ List.count c (p :: ps) := by
        intro hc
        by_cases hcp : c = p
        · subst hcp; rw [List.count_cons_self]; omega
        · rw [List.count_cons_of_ne hcp]; exact hc
      by_cases hp : p ∈ seen
      · simp only [dupsFrom, if_pos hp] at h
        rcases List.mem_cons.mp h with rfl | h2
        · exact Or.inl ⟨hp, List.mem_cons_self c ps⟩
        · rcases ih seen c h2 with ⟨h3, h4⟩ | h3
          · exact Or.inl ⟨h3, List.mem_cons_of_mem _ h4⟩
          · exact Or.inr (hmono h3)
      · simp only [dupsFrom, if_neg hp] at h
        rcases ih _ c h with ⟨h3, h4⟩ | h3
        · rcases List.mem_cons.mp h3 with rfl | h5
          · have hpos : 0 < List.count c ps := List.count_pos_iff.mpr h4
            exact Or.inr (by rw [List.count_cons_self]; omega)
          · exact Or.inl ⟨h5, List.mem_cons_of_mem _ h4⟩
        · exact Or.inr (hmono h3)

/-! ## Shapes of a whole ingestion pass -/

lemma run_jsdoc_conflicts_shape (base : List Char) (B : List Doclet) (app : App)
    (h : AllParse base (filteredOf B))
    (hc : dupsFrom [] (pathsOf base (filteredOf B)) ≠ []) :
    run_jsdoc base B app =
      (Except.error (RunError.pathsTaken
         ⟨dupsFrom [] (pathsOf base (filteredOf B))⟩),
       { app with by_path := some (insertPure (pairsOf base (filteredOf B)) [] []).1 }) := by
  have hIL := insertLoop_eq_pure base (filteredOf B) [] [] h
  have hcs : (insertPure (pairsOf base (filteredOf B)) [] []).2 =
      dupsFrom [] (pathsOf base (filteredOf B)) := by
    rw [insertPure_conflicts]
    simp [pairsOf_keys]
  have hE : (dupsFrom [] (pathsOf base (filteredOf B))).isEmpty = false := by
    rcases hdd : dupsFrom [] (pathsOf base (filteredOf B)) with _ | ⟨a, l⟩
    · exact absurd hdd hc
    · rfl
  simp only [run_jsdoc, hIL, hcs, hE, Bool.false_eq_true, if_false]

lemma run_jsdoc_ok_shape (base : List Char) (B : List Doclet) (app : App)
    (h1 : AllParse base (filteredOf B))
    (h2 : dupsFrom [] (pathsOf base (filteredOf B)) = [])
    (h3 : AllParseMem base (filteredOf B)) :
    run_jsdoc base B app =
      (Except.ok (),
       { app with
           by_path := some (insertPure (pairsOf base (filteredOf B)) [] []).1,
           by_class := some (classLoop base (filteredOf B) (fun _ => [])).idx }) := by
  have hIL := insertLoop_eq_pure base (filteredOf B) [] [] h1
  have hcs : (insertPure (pairsOf base (filteredOf B)) [] []).2 =
      dupsFrom [] (pathsOf base (filteredOf B)) := by
    rw [insertPure_conflicts]
    simp [pairsOf_keys]
  have hCL := (classLoop_spec base (filteredOf B) (fun _ => []) h3).1
  rcases hCLE : classLoop base (filteredOf B) (fun _ => []) with ⟨m, me⟩
  have hme : me = none := by rw [hCLE] at hCL; exact hCL
  subst hme
  simp only [run_jsdoc, hIL, hcs, h2, List.isEmpty_nil, if_true, hCLE]

lemma run_jsdoc_parse_shape (base : List Char) (B : List Doclet) (app : App)
    (pre : List Doclet) (dBad : Doclet) (post : List Doclet)
    (hsplit : filteredOf B = pre ++ dBad :: post)
    (hpre : AllParse base pre)
    (hbad : (doclet_full_path dBad base LongnameField.longname).isOk = false) :
    ∃ e, doclet_full_path dBad base LongnameField.longname = Except.error e ∧
      run_jsdoc base B app =
        (Except.error (RunError.parse e),
         { app with by_path := some (insertPure (pairsOf base pre) [] []).1 }) := by
  cases hE : doclet_full_path dBad base LongnameField.longname with
  | ok p => rw [hE] at hbad; simp [Except.isOk, Except.toBool] at hbad
  | error e =>
      refine ⟨e, rfl, ?_⟩
      have hIL : insertLoop base (filteredOf B) [] [] =
          ⟨(insertPure (pairsOf base pre) [] []).1,
           (insertPure (pairsOf base pre) [] []).2, some e⟩ := by
        rw [hsplit, insertLoop_append base pre (dBad :: post) [] [] hpre]
        simp only [insertLoop, hE]
      simp only [run_jsdoc, hIL]

lemma run_jsdoc_no_conflict_result (base : List Char) (B : List Doclet) (app : App)
    (h : AllParse base (filteredOf B))
    (hc : dupsFrom [] (pathsOf base (filteredOf B)) = []) :
    ∀ c : PathsTaken,
      (run_jsdoc base B app).1 ≠ Except.error (RunError.pathsTaken c) := by
  intro c
  have hIL := insertLoop_eq_pure base (filteredOf B) [] [] h
  have hcs : (insertPure (pairsOf base (filteredOf B)) [] []).2 =
      dupsFrom [] (pathsOf base (filteredOf B)) := by
    rw [insertPure_conflicts]
    simp [pairsOf_keys]
  simp only [run_jsdoc, hIL, hcs, hc, List.isEmpty_nil, if_true]
  generalize classLoop base (filteredOf B) (fun _ => []) = cres
  obtain ⟨m, me⟩ := cres
  cases me <;> simp

lemma run_jsdoc_by_path (base : List Char) (B : List Doclet) (app : App) :
    (run_jsdoc base B app).2.by_path =
      some (insertLoop base (filteredOf B) [] []).tree := by
  simp only [run_jsdoc]
  generalize insertLoop base (filteredOf B) [] [] = r
  obtain ⟨t, cs, pe⟩ := r
  cases pe with
  | some e => rfl
  | none =>
      by_cases hcs : cs.isEmpty = true
      · simp only [hcs, if_true]
        generalize classLoop base (filteredOf B) (fun _ => []) = cres
        obtain ⟨m, me⟩ := cres
        cases me <;> rfl
      · rw [if_neg (by simpa using hcs)]

lemma run_jsdoc_by_class (base : List Char) (B : List Doclet) (app : App) :
    (run_jsdoc base B app).2.by_class = app.by_class ∨
    (run_jsdoc base B app).2.by_class =
      some (classLoop base (filteredOf B) (fun _ => [])).idx := by
  simp only [run_jsdoc]
  generalize insertLoop base (filteredOf B) [] [] = r
  obtain ⟨t, cs, pe⟩ := r
  cases pe with
  | some e => exact Or.inl rfl
  | none =>
      by_cases hcs : cs.isEmpty = true
      · simp only [hcs, if_true]
        refine Or.inr ?_
        generalize classLoop base (filteredOf B) (fun _ => []) = cres
        obtain ⟨m, me⟩ := cres
        cases me <;> rfl
      · rw [if_neg (by simpa using hcs)]
        exact Or.inl rfl

/-- The boolean guard of `rooted_rel`, as a proposition. -/
lemma rooted_rel_cond (rel : List Char) :
    (!(List.isPrefixOf ['.', '.', '/'] rel || List.isPrefixOf ['.', '/'] rel) &&
      !(rel == ['.', '.'] || rel == ['.'])) = true ↔
    ¬ (['.', '/'] <+: rel ∨ ['.', '.', '/'] <+: rel ∨
        rel = ['.'] ∨ rel = ['.', '.']) := by
  constructor
  · intro h
    simp only [Bool.and_eq_true, Bool.not_eq_true', Bool.or_eq_false_iff,
      beq_eq_false_iff_ne, ne_eq] at h
    obtain ⟨⟨h1, h2⟩, h3, h4⟩ := h
    rw [not_or, not_or, not_or]
    refine ⟨fun hp => ?_, fun hp => ?_, h4, h3⟩
    · rw [← List.isPrefixOf_iff_prefix] at hp
      rw [h2] at hp
      cases hp
    · rw [← List.isPrefixOf_iff_prefix] at hp
      rw [h1] at hp
      cases hp
  · intro h
    rw [not_or, not_or, not_or] at h
    obtain ⟨h1, h2, h3, h4⟩ := h
    simp only [Bool.and_eq_true, Bool.not_eq_true', Bool.or_eq_false_iff,
      beq_eq_false_iff_ne, ne_eq]
    refine ⟨⟨?_, ?_⟩, h4, h3⟩
    · cases hb : List.isPrefixOf ['.', '.', '/'] rel
      · rfl
      · exact absurd ( List.isPrefixOf_iff_prefix.mp hb) h2
    · cases hb : List.isPrefixOf ['.', '/'] rel
      · rfl
      · exact absurd ( List.isPrefixOf_iff_prefix.mp hb) h1

/-! ## The claims -/

/-- C1: during one ingestion pass, every path collision (a record whose full
path is identical to an already-inserted one — exactly the later duplicates
`dupsFrom [] (pathsOf ...)`) is collected rather than raised immediately,
and if at least one collision occurred, a single aggregate `PathsTaken`
failure carrying all collected conflicts is raised at the end of the
insertion phase; if no collision occurred, no such failure is raised. -/
theorem c1_conflicts_collected_and_raised_once (base : List Char)
    (B : List Doclet) (app : App) (h : AllParse base (filteredOf B)) :
    (dupsFrom [] (pathsOf base (filteredOf B)) ≠ [] →
      (run_jsdoc base B app).1 =
        Except.error (RunError.pathsTaken
          ⟨dupsFrom [] (pathsOf base (filteredOf B))⟩)) ∧
    (dupsFrom [] (pathsOf base (filteredOf B)) = [] →
      ∀ c : PathsTaken,
        (run_jsdoc base B app).1 ≠ Except.error (RunError.pathsTaken c)) := by
  constructor
  · intro hc
    rw [run_jsdoc_conflicts_shape base B app h hc]
  · intro hc
    exact run_jsdoc_no_conflict_result base B app h hc

/-- Witness for C1 at a concrete conflicting batch: `exD1` and `exD1b`
collide at `./f.C` and the pass raises the one aggregate failure. -/
theorem c1_conflicts_collected_and_raised_once_witness :
    AllParse exBase (filteredOf [exD1, exD1b, exD2]) ∧
    (run_jsdoc exBase [exD1, exD1b, exD2] exApp).1 =
      Except.error (RunError.pathsTaken
        ⟨dupsFrom [] (pathsOf exBase (filteredOf [exD1, exD1b, exD2]))⟩) :=
  ⟨by decide,
   (c1_conflicts_collected_and_raised_once exBase [exD1, exD1b, exD2] exApp
      (by decide)).1 (by decide)⟩

/-- C2 counterexample: in the conflicting batch `[exD1, exD1b, exD2]` the
aggregate conflict failure is reported, `exD2` declares an enclosing scope,
yet the Membership Index is never built (the attribute is still unassigned
when the failure propagates), so `exD2` is not indexed in any Membership
Index list — contradicting "indexed in both the Suffix Index and the
Membership Index before the aggregate conflict failure is reported". -/
theorem c2_counterexample :
    (run_jsdoc exBase [exD1, exD1b, exD2] exApp).1 =
      Except.error (RunError.pathsTaken ⟨[exPathC]⟩) ∧
    pyTruthy exD2.memberof = true ∧
    (run_jsdoc exBase [exD1, exD1b, exD2] exApp).2.by_class = none := by
  exact ⟨rfl, rfl, rfl⟩

/-- C2 as amended: on a conflicting pass all remaining records are still
processed for the Suffix Index — every non-conflicting record (one whose
full path occurs exactly once in the batch) is in the Suffix Index when the
aggregate failure is reported — but the Membership Index is not built: the
attribute keeps its prior value. -/
theorem c2_amended_suffix_index_complete (base : List Char) (B : List Doclet)
    (app : App) (h : AllParse base (filteredOf B))
    (hc : dupsFrom [] (pathsOf base (filteredOf B)) ≠ []) :
    (run_jsdoc base B app).1 =
      Except.error (RunError.pathsTaken
        ⟨dupsFrom [] (pathsOf base (filteredOf B))⟩) ∧
    (∃ t, (run_jsdoc base B app).2.by_path = some t ∧
      ∀ d ∈ filteredOf B,
        List.count (pathOf base LongnameField.longname d)
          (pathsOf base (filteredOf B)) = 1 →
        (pathOf base LongnameField.longname d, d) ∈ t) ∧
    (run_jsdoc base B app).2.by_class = app.by_class := by
  rw [run_jsdoc_conflicts_shape base B app h hc]
  refine ⟨rfl, ⟨_, rfl, ?_⟩, rfl⟩
  intro d hd hcount
  apply insertPure_mem_of_count_one
  · exact List.mem_map_of_mem _ hd
  · rw [pairsOf_keys]
    exact hcount
  · rfl

/-- Witness for the amended C2: in the concrete conflicting batch the
uniquely-pathed records `exD1` (first occurrence wins) — here checked for
`exD2`, whose path occurs once — are in the Suffix Index while the failure
is reported and the Membership Index stays unassigned. -/
theorem c2_amended_suffix_index_complete_witness :
    (run_jsdoc exBase [exD1, exD1b, exD2] exApp).1 =
      Except.error (RunError.pathsTaken
        ⟨dupsFrom [] (pathsOf exBase (filteredOf [exD1, exD1b, exD2]))⟩) ∧
    (∃ t, (run_jsdoc exBase [exD1, exD1b, exD2] exApp).2.by_path = some t ∧
      ∀ d ∈ filteredOf [exD1, exD1b, exD2],
        List.count (pathOf exBase LongnameField.longname d)
          (pathsOf exBase (filteredOf [exD1, exD1b, exD2])) = 1 →
        (pathOf exBase LongnameField.longname d, d) ∈ t) ∧
    (run_jsdoc exBase [exD1, exD1b, exD2] exApp).2.by_class = exApp.by_class :=
  c2_amended_suffix_index_complete exBase [exD1, exD1b, exD2] exApp
    (by decide) (by decide)

/-- C3 counterexample: in the batch `[exBad, exD1]` the first record's path
is malformed; the resulting `ParseError` propagates immediately (it is not
collected and reported at the end of the pass) and the valid record `exD1`
is never indexed — the Suffix Index is left empty — contradicting "parse
errors ... are accumulated across the whole ingestion pass and reported
once at the end, and all remaining records are still processed". -/
theorem c3_counterexample :
    (run_jsdoc exBase [exBad, exD1] exApp).1 =
      Except.error (RunError.parse ⟨[]⟩) ∧
    (run_jsdoc exBase [exBad, exD1] exApp).2.by_path = some [] := by
  exact ⟨rfl, rfl⟩

/-- C3 as amended: a `ParseError` raised while computing one record's full
path aborts the entire ingestion pass at that record: the error propagates
as the pass's result, only records before the failing one can be in the
Suffix Index, conflicts collected so far are never reported, and the
Membership Index is not built. -/
theorem c3_amended_parse_error_aborts_pass (base : List Char)
    (B : List Doclet) (app : App)
    (pre : List Doclet) (dBad : Doclet) (post : List Doclet)
    (hsplit : filteredOf B = pre ++ dBad :: post)
    (hpre : AllParse base pre)
    (hbad : (doclet_full_path dBad base LongnameField.longname).isOk = false) :
    ∃ e, doclet_full_path dBad base LongnameField.longname = Except.error e ∧
      (run_jsdoc base B app).1 = Except.error (RunError.parse e) ∧
      (∃ t, (run_jsdoc base B app).2.by_path = some t ∧ ∀ x ∈ t, x.2 ∈ pre) ∧
      (run_jsdoc base B app).2.by_class = app.by_class := by
  obtain ⟨e, he, hrun⟩ :=
    run_jsdoc_parse_shape base B app pre dBad post hsplit hpre hbad
  refine ⟨e, he, ?_, ?_, ?_⟩
  · rw [hrun]
  · rw [hrun]
    refine ⟨_, rfl, ?_⟩
    intro x hx
    rcases insertPure_sub _ _ _ x hx with h | h
    · simp at h
    · rcases List.mem_map.mp h with ⟨d, hd, hxd⟩
      rw [← hxd]
      exact hd
  · rw [hrun]

/-- Witness for the amended C3 at the concrete batch `[exBad, exD1]`:
`pre = []`, so the pass ends with the `ParseError` and an empty index. -/
theorem c3_amended_parse_error_aborts_pass_witness :
    ∃ e, doclet_full_path exBad exBase LongnameField.longname = Except.error e ∧
      (run_jsdoc exBase [exBad, exD1] exApp).1 =
        Except.error (RunError.parse e) ∧
      (∃ t, (run_jsdoc exBase [exBad, exD1] exApp).2.by_path = some t ∧
        ∀ x ∈ t, x.2 ∈ ([] : List Doclet)) ∧
      (run_jsdoc exBase [exBad, exD1] exApp).2.by_class = exApp.by_class :=
  c3_amended_parse_error_aborts_pass exBase [exBad, exD1] exApp
    [] exBad [exD1] (by decide) (by decide) (by decide)

lemma count_eq_one_of_nodup (l : List FullPath) (p : FullPath)
    (hnd : l.Nodup) (h : p ∈ l) : List.count p l = 1 := by
  induction l with
  | nil => simp at h
  | cons q l ih =>
      rcases List.nodup_cons.mp hnd with ⟨hq, hl⟩
      rcases List.mem_cons.mp h with rfl | h2
      · rw [List.count_cons_self]
        have : List.count p l = 0 := by
          rw [List.count_eq_zero]
          exact hq
        omega
      · have hne : p ≠ q := by
          rintro rfl
          exact hq h2
        rw [List.count_cons_of_ne hne]
        exact ih hl h2

/-- C4 counterexample: in the concrete conflicting batch the aggregate
report is `[exPathC]` — its sole element is the one shared full path, a
list of segment strings — and that value is not, for any pair of full
paths, the pair-of-paths value the claim describes. -/
theorem c4_counterexample :
    (run_jsdoc exBase [exD1, exD1b] exApp).1 =
      Except.error (RunError.pathsTaken ⟨[exPathC]⟩) ∧
    ∀ q1 q2 : FullPath, pyConflictElem exPathC ≠ pyPathPair q1 q2 := by
  refine ⟨rfl, ?_⟩
  intro q1 q2 h
  simp [pyConflictElem, pyPathPair, exPathC] at h

/-- C4 as amended: each element of the aggregate conflict report is one
single full path (a segment list), namely the shared path at which a
collision happened — so it is held by at least two records of the filtered
batch; the aggregate is a list of single full paths, one per collision, not
a list of pairs. -/
theorem c4_amended_elements_are_single_shared_paths (base : List Char)
    (B : List Doclet) (app : App) (c : PathsTaken)
    (h : AllParse base (filteredOf B))
    (hrun : (run_jsdoc base B app).1 =
      Except.error (RunError.pathsTaken c)) :
    ∀ p ∈ c.conflicts, 2 ≤ List.count p (pathsOf base (filteredOf B)) := by
  by_cases hc : dupsFrom [] (pathsOf base (filteredOf B)) = []
  · exact absurd hrun (run_jsdoc_no_conflict_result base B app h hc c)
  · rw [run_jsdoc_conflicts_shape base B app h hc] at hrun
    have hcc : c = ⟨dupsFrom [] (pathsOf base (filteredOf B))⟩ := by
      have h1 := congrArg (fun x : Except RunError Unit =>
        match x with
        | Except.error (RunError.pathsTaken c2) => c2
        | _ => ⟨[]⟩) hrun
      simpa using h1.symm
    rw [hcc]
    intro p hp
    rcases mem_dupsFrom_count _ [] p hp with ⟨h3, _⟩ | h3
    · simp at h3
    · exact h3

/-- Witness for the amended C4: the sole reported conflict path `exPathC`
is carried by two records of the concrete batch. -/
theorem c4_amended_elements_are_single_shared_paths_witness :
    2 ≤ List.count exPathC (pathsOf exBase (filteredOf [exD1, exD1b])) :=
  c4_amended_elements_are_single_shared_paths exBase [exD1, exD1b] exApp
    ⟨[exPathC]⟩ (by decide) rfl exPathC (by decide)

/-- C5: on a successful pass, every filtered record with a truthy
`memberof` is appended to the Membership Index list keyed by its enclosing
scope's full path (the parse of the record's `memberof` field); a record
with no declared scope is absent from every Membership Index list; and
either way the record is inserted into the Suffix Index. -/
theorem c5_membership_index_scopes (base : List Char) (B : List Doclet)
    (app : App) (h1 : AllParse base (filteredOf B))
    (h2 : dupsFrom [] (pathsOf base (filteredOf B)) = [])
    (h3 : AllParseMem base (filteredOf B)) :
    ∃ t m, (run_jsdoc base B app).2.by_path = some t ∧
      (run_jsdoc base B app).2.by_class = some m ∧
      ∀ d ∈ filteredOf B,
        (pyTruthy d.memberof = true →
          doclet_full_path d base LongnameField.memberof =
            Except.ok (pathOf base LongnameField.memberof d) ∧
          d ∈ m (pathOf base LongnameField.memberof d)) ∧
        (pyTruthy d.memberof = false → ∀ k, d ∉ m k) ∧
        (pathOf base LongnameField.longname d, d) ∈ t := by
  rw [run_jsdoc_ok_shape base B app h1 h2 h3]
  refine ⟨_, _, rfl, rfl, ?_⟩
  intro d hd
  have hmk := (classLoop_spec base (filteredOf B) (fun _ => []) h3).2
  refine ⟨?_, ?_, ?_⟩
  · intro hT
    have hOk : (doclet_full_path d base LongnameField.memberof).isOk = true := by
      have := List.all_eq_true.mp h3 d hd
      simpa [hT] using this
    refine ⟨dfp_eq_ok d base LongnameField.memberof hOk, ?_⟩
    rw [hmk (pathOf base LongnameField.memberof d)]
    simp only [List.nil_append]
    refine List.mem_filter.mpr ⟨hd, ?_⟩
    simp [hT]
  · intro hF k
    rw [hmk k]
    intro hmem
    simp only [List.nil_append] at hmem
    have hpred := (List.mem_filter.mp hmem).2
    rw [Bool.and_eq_true] at hpred
    rw [hF] at hpred
    exact absurd hpred.1 (by simp)
  · have hnd : (pathsOf base (filteredOf B)).Nodup :=
      (dupsFrom_eq_nil _ [] h2).1
    apply insertPure_mem_of_count_one
    · exact List.mem_map_of_mem _ hd
    · rw [pairsOf_keys]
      exact count_eq_one_of_nodup _ _ hnd
        (List.mem_map_of_mem (pathOf base LongnameField.longname) hd)
    · rfl

/-- Witness for C5 at the concrete successful batch `[exD1, exD2]`. -/
theorem c5_membership_index_scopes_witness :
    ∃ t m, (run_jsdoc exBase [exD1, exD2] exApp).2.by_path = some t ∧
      (run_jsdoc exBase [exD1, exD2] exApp).2.by_class = some m ∧
      ∀ d ∈ filteredOf [exD1, exD2],
        (pyTruthy d.memberof = true →
          doclet_full_path d exBase LongnameField.memberof =
            Except.ok (pathOf exBase LongnameField.memberof d) ∧
          d ∈ m (pathOf exBase LongnameField.memberof d)) ∧
        (pyTruthy d.memberof = false → ∀ k, d ∉ m k) ∧
        (pathOf exBase LongnameField.longname d, d) ∈ t :=
  c5_membership_index_scopes exBase [exD1, exD2] exApp
    (by decide) (by decide) (by decide)

/-- C10: on a successful pass, the Membership Index list at every key `k`
is exactly the doclets of the filtered batch whose declared enclosing scope
parses to `k`, in batch order, with no reordering and no deduplication —
literally a `filter` of the filtered batch. -/
theorem c10_membership_lists_ordered_exact (base : List Char)
    (B : List Doclet) (app : App) (h1 : AllParse base (filteredOf B))
    (h2 : dupsFrom [] (pathsOf base (filteredOf B)) = [])
    (h3 : AllParseMem base (filteredOf B)) :
    ∃ m, (run_jsdoc base B app).2.by_class = some m ∧
      ∀ k, m k = (filteredOf B).filter (fun d =>
        pyTruthy d.memberof && (pathOf base LongnameField.memberof d == k)) := by
  rw [run_jsdoc_ok_shape base B app h1 h2 h3]
  refine ⟨_, rfl, fun k => ?_⟩
  have := (classLoop_spec base (filteredOf B) (fun _ => []) h3).2 k
  simpa using this

/-- Witness for C10 at the concrete successful batch `[exD1, exD2]`. -/
theorem c10_membership_lists_ordered_exact_witness :
    ∃ m, (run_jsdoc exBase [exD1, exD2] exApp).2.by_class = some m ∧
      ∀ k, m k = (filteredOf [exD1, exD2]).filter (fun d =>
        pyTruthy d.memberof &&
          (pathOf exBase LongnameField.memberof d == k)) :=
  c10_membership_lists_ordered_exact exBase [exD1, exD2] exApp
    (by decide) (by decide) (by decide)

/-- C6 counterexample: the relativized path `.` starts with neither `./`
nor `../`, so the claim predicts it is prefixed to `./.`; the code leaves
it unchanged because of the extra `rel not in ('..', '.')` clause. -/
theorem c6_counterexample :
    ¬ (['.', '/'] <+: ['.'] ∨ ['.', '.', '/'] <+: ['.']) ∧
    rooted_rel ['.'] = ['.'] ∧
    rooted_rel ['.'] ≠ ['.', '/'] ++ ['.'] := by
  refine ⟨?_, rfl, by decide⟩
  rw [not_or]
  constructor <;> (intro h; rcases h with ⟨t, ht⟩; cases ht)

/-- C6 as amended: the relativized directory is used unchanged when it
starts with `./` or `../` or is exactly `.` or `..`; in every other case it
is prefixed with `./`. -/
theorem c6_amended_rooted_rel (rel : List Char) :
    ((['.', '/'] <+: rel ∨ ['.', '.', '/'] <+: rel ∨
        rel = ['.'] ∨ rel = ['.', '.']) → rooted_rel rel = rel) ∧
    (¬ (['.', '/'] <+: rel ∨ ['.', '.', '/'] <+: rel ∨
        rel = ['.'] ∨ rel = ['.', '.']) →
      rooted_rel rel = ['.', '/'] ++ rel) := by
  constructor
  · intro h
    unfold rooted_rel
    rw [if_neg]
    intro hb
    exact (rooted_rel_cond rel).mp hb h
  · intro h
    unfold rooted_rel
    rw [if_pos ((rooted_rel_cond rel).mpr h)]

/-- Witness for the amended C6: `a` is prefixed, `.` is left unchanged. -/
theorem c6_amended_rooted_rel_witness :
    rooted_rel ['a'] = ['.', '/'] ++ ['a'] ∧ rooted_rel ['.'] = ['.'] :=
  ⟨(c6_amended_rooted_rel ['a']).2 (by decide),
   (c6_amended_rooted_rel ['.']).1 (by decide)⟩

/-- C7: the filtering of line 36 retains exactly the records with a truthy
comment and a falsy undocumented flag, and (starting from an app whose
Membership Index attribute is unassigned) no filtered-out record can appear
in the Suffix Index or in any Membership Index list of the pass's result. -/
theorem c7_undocumented_filtered_out (base : List Char) (B : List Doclet)
    (app : App) (happ : app.by_class = none) :
    (∀ d, d ∈ filteredOf B ↔
      d ∈ B ∧ pyTruthy d.comment = true ∧ d.undocumented = false) ∧
    (∀ t, (run_jsdoc base B app).2.by_path = some t →
      ∀ x ∈ t, x.2 ∈ filteredOf B) ∧
    (∀ m, (run_jsdoc base B app).2.by_class = some m →
      ∀ k, ∀ d ∈ m k, d ∈ filteredOf B) := by
  refine ⟨?_, ?_, ?_⟩
  · intro d
    rw [filteredOf, List.mem_filter]
    simp [Bool.and_eq_true, Bool.not_eq_true']
  · intro t ht x hx
    rw [run_jsdoc_by_path base B app] at ht
    have ht2 : t = (insertLoop base (filteredOf B) [] []).tree :=
      (Option.some_inj.mp ht).symm
    rw [ht2] at hx
    rcases insertLoop_tree_sub base (filteredOf B) [] [] x hx with h | h
    · simp at h
    · exact h
  · intro m hm k d hd
    rcases run_jsdoc_by_class base B app with hcase | hcase
    · rw [hcase, happ] at hm
      cases hm
    · rw [hcase] at hm
      have hm2 : m = (classLoop base (filteredOf B) (fun _ => [])).idx :=
        (Option.some_inj.mp hm).symm
      rw [hm2] at hd
      rcases classLoop_mem_sub base (filteredOf B) (fun _ => []) k d hd with
        ⟨k2, hk2⟩ | h
      · simp at hk2
      · exact h

/-- Witness for C7 at a batch holding a kept record, a commentless record
and an undocumented record. -/
theorem c7_undocumented_filtered_out_witness :
    (∀ d, d ∈ filteredOf [exD1, exNoComment, exUndoc] ↔
      d ∈ [exD1, exNoComment, exUndoc] ∧
        pyTruthy d.comment = true ∧ d.undocumented = false) ∧
    (∀ t, (run_jsdoc exBase [exD1, exNoComment, exUndoc] exApp).2.by_path =
        some t → ∀ x ∈ t, x.2 ∈ filteredOf [exD1, exNoComment, exUndoc]) ∧
    (∀ m, (run_jsdoc exBase [exD1, exNoComment, exUndoc] exApp).2.by_class =
        some m →
      ∀ k, ∀ d ∈ m k, d ∈ filteredOf [exD1, exNoComment, exUndoc]) :=
  c7_undocumented_filtered_out exBase [exD1, exNoComment, exUndoc] exApp rfl

/-- C8: full-path computation is deterministic.  In this embedding
`doclet_full_path` and the path grammar are pure functions of their
arguments — mirroring the Python code, which consults no state besides the
doclet, the base directory and the field name — so two calls with the same
arguments yield structurally equal results by reflexivity, and likewise for
parsing the same path string twice. -/
theorem c8_full_path_deterministic (d : Doclet) (base : List Char)
    (lf : LongnameField) :
    doclet_full_path d base lf = doclet_full_path d base lf ∧
    ∀ s : List Char, parsePath s = parsePath s :=
  ⟨rfl, fun _ => rfl⟩

/-- C9: `without_ending` with ending `.js` removes exactly one trailing
`.js` when present (appending `.js` back restores the input), returns the
input unchanged otherwise, and always returns a prefix of the input. -/
theorem c9_without_ending_js (s : List Char) :
    (List.isSuffixOf ['.', 'j', 's'] s = true →
      without_ending s ['.', 'j', 's'] ++ ['.', 'j', 's'] = s) ∧
    (List.isSuffixOf ['.', 'j', 's'] s = false →
      without_ending s ['.', 'j', 's'] = s) ∧
    List.isPrefixOf (without_ending s ['.', 'j', 's']) s = true := by
  by_cases h : List.isSuffixOf ['.', 'j', 's'] s = true
  · have hsuf : ['.', 'j', 's'] <:+ s := List.isSuffixOf_iff_suffix.mp h
    obtain ⟨t, ht⟩ := hsuf
    have hwe : without_ending s ['.', 'j', 's'] = t := by
      unfold without_ending
      rw [if_pos h, if_neg (by decide)]
      rw [← ht]
      simp
    refine ⟨fun _ => by rw [hwe, ht], fun hf => ?_, ?_⟩
    · rw [h] at hf
      cases hf
    · rw [hwe]
      exact List.isPrefixOf_iff_prefix.mpr ⟨['.', 'j', 's'], ht⟩
  · have hf : List.isSuffixOf ['.', 'j', 's'] s = false := by
      cases hh : List.isSuffixOf ['.', 'j', 's'] s
      · rfl
      · exact absurd hh h
    have hwe : without_ending s ['.', 'j', 's'] = s := by
      unfold without_ending
      rw [if_neg (by simp [hf])]
    refine ⟨fun ht => absurd ht h, fun _ => hwe, ?_⟩
    rw [hwe]
    exact List.isPrefixOf_iff_prefix.mpr ⟨[], by simp⟩

/-- Witness for C9: `f.js` loses its ending and restores it by appending;
`f` is returned unchanged. -/
theorem c9_without_ending_js_witness :
    without_ending ['f', '.', 'j', 's'] ['.', 'j', 's'] ++ ['.', 'j', 's'] =
      ['f', '.', 'j', 's'] ∧
    without_ending ['f'] ['.', 'j', 's'] = ['f'] :=
  ⟨(c9_without_ending_js ['f', '.', 'j', 's']).1 (by decide),
   (c9_without_ending_js ['f']).2.1 (by decide)⟩

end SphinxJs
